import Mathlib

/-!
Shallow embedding of the Sidur-Mk1 batch pipeline: pipeline/cleaning.py,
pipeline/tokenization.py, pipeline/exporter.py, pipeline/augmentation.py
and pipeline/manager.py.

Conventions.  A Python `str` is a sequence of code points and is modelled as
`List Char`; Python non-negative `int` as `Nat`.  Calls into external
libraries (unicodedata, html, re, fasttext, datasketch, sentencepiece,
hashlib, random, nltk) are modelled as abstract function parameters; every
piece of logic written in the repository itself is translated concretely.
-/

/-- `Document` from pipeline/data_models.py: text, optional ISO language
code, optional metadata dict (modelled as an ordered key-value list). -/
structure Document where
  text : List Char
  language : Option (List Char) := none
  metadata : Option (List (List Char × List Char)) := none
deriving DecidableEq

/-- `TokenizedChunk` from pipeline/data_models.py. -/
structure TokenizedChunk where
  tokens : List Nat
  text : List Char
deriving DecidableEq

/-- `DatasetStats` from pipeline/data_models.py; the language-distribution
dict is modelled as an insertion-ordered association list. -/
structure DatasetStats where
  num_documents : Nat
  num_tokens : Nat
  language_distribution : List (List Char × Nat)
  dataset_hash : List Char
deriving DecidableEq

/-- The per-document chunking loop of `tokenize_and_chunk`
(tokenization.py lines 67-70): `for i in range(0, len(ids), chunk_size)`
slices `ids[i : i + chunk_size]`.  The first argument is fuel bounding the
number of loop iterations; `ids.length` suffices whenever `chunk_size ≥ 1`
(Python's `range` raises on step 0, so `chunk_size = 0` never reaches the
loop body). -/
def chunkGo (k : Nat) : Nat → List Nat → List (List Nat)
  | _, [] => []
  | 0, _ :: _ => []
  | fuel + 1, x :: xs => (x :: xs).take k :: chunkGo k fuel ((x :: xs).drop k)

/-- All chunk windows of one encoded document, in emission order. -/
def chunkTokens (k : Nat) (ids : List Nat) : List (List Nat) :=
  chunkGo k ids.length ids

/-- The chunks emitted for one document by `tokenize_and_chunk`
(tokenization.py lines 66-70).  `encode` and `decode` model the loaded
sentencepiece processor (external library). -/
def tokenizeDoc (encode : List Char → List Nat) (decode : List Nat → List Char)
    (chunk_size : Nat) (d : Document) : List TokenizedChunk :=
  (chunkTokens chunk_size (encode d.text)).map (fun w => { tokens := w, text := decode w })

/-- `tokenize_and_chunk` (tokenization.py lines 54-76): documents are
processed in order, each appending its chunks to the shared accumulator.
The progress callback has no effect on the returned chunks (its exceptions
are swallowed) and is omitted. -/
def tokenize_and_chunk (encode : List Char → List Nat) (decode : List Nat → List Char)
    (chunk_size : Nat) (documents : List Document) : List TokenizedChunk :=
  documents.foldl (fun acc d => acc ++ tokenizeDoc encode decode chunk_size d) []

/-- Outcome of one `SentencePieceTrainer.Train` call (external library):
success, or a `RuntimeError` whose message may carry a parsed
"value <= N" maximum (tokenization.py line 43). -/
inductive TrainOutcome
  | success
  | failure (reported : Option Nat)

/-- One backoff update of `train_or_load_sp_model` (tokenization.py lines
43-48), mapping the current requested vocabulary size and the optional
reported maximum to the next requested size.  `int(current_vs * 0.8)` on a
non-negative int truncates toward zero and is modelled as `cur * 4 / 5`
(Nat floor division); Python's possibly-negative `current_vs - 1000`
agrees with the Nat-truncated subtraction under the outer `max 1000`. -/
def backoffStep (cur : Nat) (reported : Option Nat) : Nat :=
  match reported with
  | some suggested_max => max 1000 (min (cur - 1000) suggested_max)
  | none => max 1000 (cur * 4 / 5)

/-- Result of observing the retry loop of `train_or_load_sp_model` for a
bounded number of iterations. -/
inductive TrainResult
  | trained (finalSize : Nat)
  | raised (finalSize : Nat)
  | stillRetrying (currentSize : Nat)
deriving DecidableEq

/-- The `while True` retry loop of `train_or_load_sp_model`
(tokenization.py lines 29-50).  `trainer` gives the deterministic outcome
of one training call at a given vocabulary size on the fixed corpus;
`fuel` bounds the number of observed iterations, so `stillRetrying c`
means the loop is still running with requested size `c` after `fuel`
attempts.  `raised` is the `raise` branch guarded by
`current_vs < 1000`. -/
def trainLoop (trainer : Nat → TrainOutcome) : Nat → Nat → TrainResult
  | 0, cur => TrainResult.stillRetrying cur
  | fuel + 1, cur =>
    match trainer cur with
    | TrainOutcome.success => TrainResult.trained cur
    | TrainOutcome.failure reported =>
      let next := backoffStep cur reported
      if next < 1000 then TrainResult.raised next
      else trainLoop trainer fuel next

/-- U+200B ZERO WIDTH SPACE (exporter.py line 14). -/
def ZERO_WIDTH_SPACE : Char := Char.ofNat 0x200B

/-- U+200D ZERO WIDTH JOINER (exporter.py line 15). -/
def ZERO_WIDTH_JOINER : Char := Char.ofNat 0x200D

/-- Python `int(ch, 16)` restricted to a single hexadecimal digit
(other characters raise in Python; the final branch is never exercised
under the theorems' hypotheses). -/
def hexDigitVal (c : Char) : Nat :=
  if '0' ≤ c ∧ c ≤ '9' then c.toNat - '0'.toNat
  else if 'a' ≤ c ∧ c ≤ 'f' then c.toNat - 'a'.toNat + 10
  else if 'A' ≤ c ∧ c ≤ 'F' then c.toNat - 'A'.toNat + 10
  else 0

/-- `f"{v:04b}"` for a nibble value: its four binary digits, most
significant first (`true` = digit '1'). -/
def nibbleBits (n : Nat) : List Bool :=
  [n.testBit 3, n.testBit 2, n.testBit 1, n.testBit 0]

/-- The bitstream built by `_watermark_text` (exporter.py line 28): each
hex character of the watermark expands to its four binary digits. -/
def bitstreamOf (watermark_hex : List Char) : List Bool :=
  watermark_hex.flatMap (fun ch => nibbleBits (hexDigitVal ch))

/-- The character loop of `_watermark_text` (exporter.py lines 29-36):
while bits remain (`i < len(bitstream)`), each text character is followed
by ZERO WIDTH SPACE for bit 0 and ZERO WIDTH JOINER for bit 1; once the
bitstream is exhausted, the remaining characters are emitted unmarked. -/
def watermarkChars : List Char → List Bool → List Char
  | [], _ => []
  | c :: cs, [] => c :: watermarkChars cs []
  | c :: cs, b :: bs =>
      c :: (if b then ZERO_WIDTH_JOINER else ZERO_WIDTH_SPACE) :: watermarkChars cs bs

/-- `_watermark_text` (exporter.py lines 26-36). -/
def _watermark_text (text : List Char) (watermark_hex : List Char) : List Char :=
  watermarkChars text (bitstreamOf watermark_hex)

/-- Decoder described by the round-trip property: read the zero-width
marker characters back as bits, in order, ignoring all other
characters. -/
def readMarkerBits (s : List Char) : List Bool :=
  s.filterMap (fun c =>
    if c = ZERO_WIDTH_SPACE then some false
    else if c = ZERO_WIDTH_JOINER then some true else none)

/-- Lower-case hexadecimal digit of a nibble value, the alphabet produced
by `hexdigest`. -/
def hexChar (n : Nat) : Char :=
  if n < 10 then Char.ofNat ('0'.toNat + n) else Char.ofNat ('a'.toNat + (n - 10))

/-- Regroup a bitstream four bits at a time (most significant first) into
hex digits; a trailing group of fewer than four bits is dropped. -/
def hexOfBits : List Bool → List Char
  | b3 :: b2 :: b1 :: b0 :: rest =>
      hexChar ((if b3 then 8 else 0) + (if b2 then 4 else 0)
        + (if b1 then 2 else 0) + (if b0 then 1 else 0)) :: hexOfBits rest
  | _ => []

/-- A lower-case hexadecimal digit, as produced by `hexdigest`. -/
def isLowerHex (c : Char) : Bool :=
  ('0' ≤ c && c ≤ '9') || ('a' ≤ c && c ≤ 'f')

/-- UTF-8 encoding of one code point, the byte layout produced by
CPython's `str.encode("utf-8")`.  Lean `Char`s are Unicode scalar values,
so the `errors="ignore"` branch (lone surrogates) never fires. -/
def utf8EncodeCharM (c : Char) : List Nat :=
  let n := c.toNat
  if n < 0x80 then [n]
  else if n < 0x800 then [0xC0 + n / 64, 0x80 + n % 64]
  else if n < 0x10000 then [0xE0 + n / 4096, 0x80 + n / 64 % 64, 0x80 + n % 64]
  else [0xF0 + n / 262144, 0x80 + n / 4096 % 64, 0x80 + n / 64 % 64, 0x80 + n % 64]

/-- `t.encode("utf-8", errors="ignore")` over a whole text. -/
def utf8Bytes (s : List Char) : List Nat := s.flatMap utf8EncodeCharM

/-- `_compute_dataset_hash` (exporter.py lines 18-23).  A hashlib hash
object is modelled by the byte sequence absorbed so far: each `update`
appends, and `hexdigest` applies the abstract SHA-256 hex digest
`sha256hex` (external library) to everything absorbed.  The loop absorbs
each text's UTF-8 bytes and then one `b"\n"` byte. -/
def _compute_dataset_hash (sha256hex : List Nat → List Char)
    (texts : List (List Char)) : List Char :=
  sha256hex (texts.foldl (fun acc t => acc ++ utf8Bytes t ++ [10]) [])

/-- The spec's description of the hashed stream: the concatenation, in
order, of each text's UTF-8 bytes followed by one newline byte. -/
def specHashStream (texts : List (List Char)) : List Nat :=
  (texts.map (fun t => utf8Bytes t ++ [10])).flatten

/-- Python truthiness of an optional string (`if lang:` and
`if d.language:`): `None` and the empty string are falsy. -/
def optTruthy : Option (List Char) → Bool
  | none => false
  | some s => !s.isEmpty

/-- One step of the language counting loop of `export_all` (exporter.py
lines 52-54): `languages[lang] = languages.get(lang, 0) + 1` on an
insertion-ordered association list. -/
def bumpLang : List (List Char × Nat) → List Char → List (List Char × Nat)
  | [], k => [(k, 1)]
  | (k', n) :: rest, k =>
      if k' = k then (k', n + 1) :: rest else (k', n) :: bumpLang rest k

/-- The `DatasetStats` value returned by `export_all` (exporter.py lines
39-112).  The dataset hash is computed from the document texts before any
format-specific writer runs; the per-format file writes and the watermark
and ASCII flags have no effect on the returned stats.  The `formats`,
`watermark_texts` and `ascii_safe_json` arguments are threaded through to
record exactly what the stats may depend on. -/
def export_all (sha256hex : List Nat → List Char) (documents : List Document)
    (chunks : List TokenizedChunk) (formats : List (List Char))
    (watermark_texts ascii_safe_json : Bool) : DatasetStats :=
  let texts := documents.map Document.text
  let dataset_hash := _compute_dataset_hash sha256hex texts
  let languages := documents.foldl
    (fun m d => if optTruthy d.language then bumpLang m (d.language.getD []) else m) []
  { num_documents := documents.length,
    num_tokens := (chunks.map (fun c => c.tokens.length)).sum,
    language_distribution := languages,
    dataset_hash := dataset_hash }

/-- Whether `pat` is an initial segment of the second list. -/
def leadMatch : List Char → List Char → Bool
  | [], _ => true
  | _ :: _, [] => false
  | a :: as, b :: bs => a = b && leadMatch as bs

/-- Python `str.replace(pat, rep)` for a non-empty pattern: replace
non-overlapping occurrences left to right.  The fuel argument bounds the
scan; `l.length` suffices for a non-empty pattern (the only patterns used
are `"\r\n"` and `"\r"`). -/
def replaceGo (pat rep : List Char) : Nat → List Char → List Char
  | _, [] => []
  | 0, l => l
  | fuel + 1, c :: cs =>
    if leadMatch pat (c :: cs) then
      rep ++ replaceGo pat rep fuel (cs.drop (pat.length - 1))
    else c :: replaceGo pat rep fuel cs

/-- Python `str.replace` (non-empty pattern). -/
def replaceSub (pat rep l : List Char) : List Char :=
  replaceGo pat rep l.length l

/-- The external text capabilities consumed by the cleaning stage.
`nfkc` models `unicodedata.normalize("NFKC", ·)`; `unescape` models
`html.unescape`; `strip` models `str.strip`; `regexClean` models the body
of `regex_clean` (four `re` substitutions and a final strip, cleaning.py
lines 36-41); `profanityHit` models the verdict of `remove_profanity`'s
scan (`any(tok in PROFANE for tok in re.findall(r"\w+", text.lower()))`,
cleaning.py lines 45-46); `classify` models the fasttext model's
predicted code for a text (cleaning.py lines 60-62, including the
newline-to-space and 1000-character-prefix preprocessing); `sim` models
the MinHash-LSH query verdict between the signatures of two texts
(datasketch, cleaning.py lines 66-84; the signature is a deterministic
function of the text).  Each capability is a fixed function, matching the
deterministic behaviour of these libraries under a fixed
configuration. -/
structure TextCaps where
  nfkc : List Char → List Char
  unescape : List Char → List Char
  strip : List Char → List Char
  regexClean : List Char → List Char
  profanityHit : List Char → Bool
  classify : List Char → Option (List Char)
  sim : List Char → List Char → Bool

/-- `normalize_text` (cleaning.py lines 29-33): NFKC-normalize, unify
line terminators (`replace("\r\n", "\n").replace("\r", "\n")`), HTML-
unescape, then strip — in exactly this order. -/
def normalize_text (caps : TextCaps) (text : List Char) : List Char :=
  caps.strip (caps.unescape (replaceSub ['\r'] ['\n']
    (replaceSub ['\r', '\n'] ['\n'] (caps.nfkc text))))

/-- `remove_profanity` (cleaning.py lines 44-48): the text unchanged, or
`None` when the profanity scan hits. -/
def remove_profanity (caps : TextCaps) (text : List Char) : Option (List Char) :=
  if caps.profanityHit text then none else some text

/-- `detect_language` (cleaning.py lines 51-63): with no model path or no
fasttext module (`modelAvailable = false`) every document gets `None`;
otherwise falsy (empty) texts get `None` and the rest get the
classifier's code. -/
def detect_language (caps : TextCaps) (modelAvailable : Bool)
    (texts : List (List Char)) : List (Option (List Char)) :=
  if modelAvailable then
    texts.map (fun t => if t.isEmpty then none else caps.classify t)
  else texts.map (fun _ => none)

/-- The whitelist/blacklist decision applied per surviving document by
`clean_documents` (cleaning.py lines 122-128): a truthy detected code is
dropped if a whitelist is configured and does not contain it, then
dropped if a blacklist is configured and contains it; a falsy code
(`None`, or empty from Python's `if lang:`) skips both checks and is
kept.  Python sets are modelled as lists used only for membership and
truthiness (`language_whitelist and ...` makes an empty or absent set
skip its check). -/
def langGateKeep (language_whitelist language_blacklist : List (List Char))
    (lang : Option (List Char)) : Bool :=
  if optTruthy lang then
    match lang with
    | none => true
    | some l =>
      if !language_whitelist.isEmpty && !language_whitelist.contains l then false
      else if !language_blacklist.isEmpty && language_blacklist.contains l then false
      else true
  else true

/-- The keep-first loop of `deduplicate_documents` (cleaning.py lines
78-84): in original order, a document whose signature is similar to any
previously inserted one is dropped; otherwise its signature is inserted
and the document kept.  `kept` is the list of documents whose signatures
the LSH index already holds. -/
def dedupGo (sim : List Char → List Char → Bool) :
    List Document → List Document → List Document
  | _, [] => []
  | kept, d :: ds =>
    if kept.any (fun k => sim k.text d.text) then dedupGo sim kept ds
    else d :: dedupGo sim (kept ++ [d]) ds

/-- `deduplicate_documents` (cleaning.py lines 66-86). -/
def deduplicate_documents (sim : List Char → List Char → Bool)
    (documents : List Document) : List Document :=
  dedupGo sim [] documents

/-- The normalization block of `clean_documents` (cleaning.py lines
99-102): normalize every text, optionally regex-clean, drop falsy
(empty) results, and rebuild bare documents. -/
def normalizeStage (caps : TextCaps) (enable_regex_clean : Bool)
    (documents : List Document) : List Document :=
  ((if enable_regex_clean then
      (documents.map (fun d => normalize_text caps d.text)).map caps.regexClean
    else documents.map (fun d => normalize_text caps d.text)).filter
      (fun t => !t.isEmpty)).map (fun t => ({ text := t } : Document))

/-- The profanity block of `clean_documents` (cleaning.py lines
104-113): when enabled, drop documents whose scan hits and rebuild the
rest from the returned text; when disabled, pass documents through. -/
def profanityStage (caps : TextCaps) (enable_profanity_filter : Bool)
    (documents : List Document) : List Document :=
  documents.filterMap (fun d =>
    if enable_profanity_filter then
      match remove_profanity caps d.text with
      | none => none
      | some rt => some ({ text := rt } : Document)
    else some d)

/-- The language block of `clean_documents` (cleaning.py lines 115-128):
detect languages (all `None` when the filter is disabled), then keep the
documents passing the whitelist/blacklist decision, each rebuilt with its
detected language. -/
def langStage (caps : TextCaps) (modelAvailable : Bool)
    (language_whitelist language_blacklist : List (List Char))
    (enable_language_filter : Bool) (documents : List Document) : List Document :=
  (documents.zip (if enable_language_filter then
      detect_language caps modelAvailable (documents.map Document.text)
    else documents.map (fun _ => none))).filterMap (fun p =>
      if langGateKeep language_whitelist language_blacklist p.2 then
        some ({ text := p.1.text, language := p.2 } : Document)
      else none)

/-- `clean_documents` up to (not including) the final deduplication
(cleaning.py lines 99-128). -/
def cleanPre (caps : TextCaps) (modelAvailable : Bool)
    (language_whitelist language_blacklist : List (List Char))
    (enable_regex_clean enable_profanity_filter enable_language_filter : Bool)
    (documents : List Document) : List Document :=
  langStage caps modelAvailable language_whitelist language_blacklist
    enable_language_filter
    (profanityStage caps enable_profanity_filter
      (normalizeStage caps enable_regex_clean documents))

/-- `clean_documents` (cleaning.py lines 89-136). -/
def clean_documents (caps : TextCaps) (modelAvailable : Bool)
    (language_whitelist language_blacklist : List (List Char))
    (enable_regex_clean enable_profanity_filter enable_language_filter
      enable_deduplication : Bool) (documents : List Document) : List Document :=
  if enable_deduplication then
    deduplicate_documents caps.sim (cleanPre caps modelAvailable
      language_whitelist language_blacklist enable_regex_clean
      enable_profanity_filter enable_language_filter documents)
  else
    cleanPre caps modelAvailable language_whitelist language_blacklist
      enable_regex_clean enable_profanity_filter enable_language_filter documents

/-- The language value `clean_documents` attaches to a surviving document
with (cleaned) text `t`: the freshly detected code when the language
filter is enabled and a classifier model is available, `None`
otherwise. -/
def detectFor (caps : TextCaps) (modelAvailable enable_language_filter : Bool)
    (t : List Char) : Option (List Char) :=
  if enable_language_filter then
    if modelAvailable then (if t.isEmpty then none else caps.classify t) else none
  else none

/-- The per-text transform applied by the normalization block:
`normalize_text`, then `regex_clean` when enabled. -/
def cleanTransform (caps : TextCaps) (enable_regex_clean : Bool)
    (t : List Char) : List Char :=
  if enable_regex_clean then caps.regexClean (normalize_text caps t)
  else normalize_text caps t

/-- Capability instantiation for the concrete counterexamples and
witnesses.  On the ASCII texts occurring in those computations NFKC and
`str.strip` are the identity, no profane token occurs, and `regexClean`
is never applied; `unescape` follows `html.unescape` on the occurring
inputs (`"&#13;"` is the numeric character reference for CARRIAGE
RETURN; the other occurring texts contain no ampersand, so `html.unescape`
leaves them unchanged); the classifier and the similarity query are never
consulted. -/
def capsCE : TextCaps :=
  { nfkc := fun s => s,
    strip := fun s => s,
    regexClean := fun s => s,
    unescape := fun s => if s = "a&#13;b".toList then "a\rb".toList else s,
    profanityHit := fun _ => false,
    classify := fun _ => none,
    sim := fun _ _ => false }

/-- Python `str.split(sep)` for a non-empty separator, on code-point
lists: split at each non-overlapping occurrence, left to right, keeping
empty pieces.  The fuel argument bounds the scan; `l.length` suffices. -/
def splitOnAux (sep : List Char) : Nat → List Char → List (List Char)
  | _, [] => [[]]
  | 0, l => [l]
  | fuel + 1, c :: cs =>
    if leadMatch sep (c :: cs) then
      [] :: splitOnAux sep fuel (cs.drop (sep.length - 1))
    else
      match splitOnAux sep fuel cs with
      | [] => [[c]]
      | h :: t => (c :: h) :: t

/-- Python `str.split(sep)` (non-empty separator). -/
def splitOn (sep l : List Char) : List (List Char) :=
  splitOnAux sep l.length l

/-- Python `sep.join(pieces)`. -/
def joinSep (sep : List Char) : List (List Char) → List Char
  | [] => []
  | [x] => x
  | x :: y :: ys => x ++ sep ++ joinSep sep (y :: ys)

/-- `synonym_replacement` (augmentation.py lines 29-43) in the
wordnet-absent configuration: `if not wn: return doc` returns the
document unchanged before any randomness is consulted. -/
def synonym_replacement_noWordnet (doc : Document) : Document := doc

/-- `sentence_reorder` (augmentation.py lines 46-50): split the text on
`". "`, shuffle the pieces when the reorder event fires and there are
more than two of them, and re-join with `". "`.  `coin` models the
outcome of `random.random() < p` and `shuffle` the permutation
`random.shuffle` applies (external `random` module). -/
def sentence_reorder (coin : Bool)
    (shuffle : List (List Char) → List (List Char)) (doc : Document) : Document :=
  let sentences := splitOn ['.', ' '] doc.text
  let sentences' :=
    if coin = true ∧ 2 < sentences.length then shuffle sentences else sentences
  { text := joinSep ['.', ' '] sentences', language := doc.language,
    metadata := doc.metadata }

/-- `augment_documents` (augmentation.py lines 53-60) when the wordnet
capability is absent: `maybe_prepare_nltk` has no effect on the result,
synonym replacement returns each document unchanged, and sentence
reordering still runs on every document.  `coins i` is the outcome of the
i-th document's `random.random() < p` draw. -/
def augment_documents_noWordnet (coins : Nat → Bool)
    (shuffle : List (List Char) → List (List Char))
    (documents : List Document) : List Document :=
  documents.enum.map (fun p =>
    sentence_reorder (coins p.1) shuffle (synonym_replacement_noWordnet p.2))

/-- The stages of `PipelineManager.run` (manager.py lines 75-154). -/
inductive Stage
  | importing
  | cleaning
  | augmenting
  | tokenizing
  | exporting
deriving DecidableEq

/-- The outcome of one `run`: the boolean return value and the stages
performed, in order. -/
structure RunResult where
  ok : Bool
  stages : List Stage
deriving DecidableEq

/-- The control flow of `PipelineManager.run` (manager.py lines 75-154).
`flag i` is the value `cancel_event.is_set()` returns at the i-th
`_check_cancel` poll, numbered in program order: 0 before import (line
77), 1 after import (line 87), 2 after cleaning (line 109), then with
augmentation enabled 3 after augmentation (line 119) and 4 after
tokenization (line 133), otherwise 3 after tokenization (line 133).
`importedNonempty` models `bool(docs)` after import (line 89).  Stage
bodies are abstracted to their occurrence in `stages`; progress, preview,
logging and metadata-store calls do not affect the returned value. -/
def run (enable_augmentation importedNonempty : Bool) (flag : Nat → Bool) : RunResult :=
  if flag 0 then { ok := false, stages := [] }
  else if flag 1 then { ok := false, stages := [Stage.importing] }
  else if !importedNonempty then { ok := false, stages := [Stage.importing] }
  else if flag 2 then { ok := false, stages := [Stage.importing, Stage.cleaning] }
  else if enable_augmentation then
    if flag 3 then
      { ok := false, stages := [Stage.importing, Stage.cleaning, Stage.augmenting] }
    else if flag 4 then
      { ok := false, stages := [Stage.importing, Stage.cleaning, Stage.augmenting,
          Stage.tokenizing] }
    else
      { ok := true, stages := [Stage.importing, Stage.cleaning, Stage.augmenting,
          Stage.tokenizing, Stage.exporting] }
  else
    if flag 3 then
      { ok := false, stages := [Stage.importing, Stage.cleaning, Stage.tokenizing] }
    else
      { ok := true, stages := [Stage.importing, Stage.cleaning, Stage.tokenizing,
          Stage.exporting] }

/-- The stages that have already run when the i-th poll happens. -/
def stagesBeforePoll (enable_augmentation : Bool) : Nat → List Stage
  | 0 => []
  | 1 => [Stage.importing]
  | 2 => [Stage.importing, Stage.cleaning]
  | 3 =>
    if enable_augmentation then [Stage.importing, Stage.cleaning, Stage.augmenting]
    else [Stage.importing, Stage.cleaning, Stage.tokenizing]
  | _ =>
    if enable_augmentation then
      [Stage.importing, Stage.cleaning, Stage.augmenting, Stage.tokenizing]
    else [Stage.importing, Stage.cleaning, Stage.tokenizing]

theorem chunkGo_flatten (k : Nat) (hk : 1 ≤ k) :
    ∀ (fuel : Nat) (ids : List Nat), ids.length ≤ fuel →
      (chunkGo k fuel ids).flatten = ids := by
  intro fuel
  induction fuel with
  | zero =>
    intro ids h
    rw [Nat.le_zero, List.length_eq_zero] at h
    subst h
    rfl
  | succ n ih =>
    intro ids h
    match ids with
    | [] => rfl
    | x :: xs =>
      have hdrop : ((x :: xs).drop k).length ≤ n := by
        simp only [List.length_drop, List.length_cons]
        simp only [List.length_cons] at h
        omega
      simp only [chunkGo, List.flatten_cons, ih _ hdrop, List.take_append_drop]

theorem chunkGo_length_le (k : Nat) :
    ∀ (fuel : Nat) (ids : List Nat), ∀ c ∈ chunkGo k fuel ids, c.length ≤ k := by
  intro fuel
  induction fuel with
  | zero =>
    intro ids c hc
    match ids with
    | [] => simp [chunkGo] at hc
    | _ :: _ => simp [chunkGo] at hc
  | succ n ih =>
    intro ids c hc
    match ids with
    | [] => simp [chunkGo] at hc
    | x :: xs =>
      simp only [chunkGo, List.mem_cons] at hc
      rcases hc with rfl | hc
      · simp
      · exact ih _ c hc

theorem chunkGo_dropLast_length (k : Nat) (hk : 1 ≤ k) :
    ∀ (fuel : Nat) (ids : List Nat), ids.length ≤ fuel →
      ∀ c ∈ (chunkGo k fuel ids).dropLast, c.length = k := by
  intro fuel
  induction fuel with
  | zero =>
    intro ids h c hc
    rw [Nat.le_zero, List.length_eq_zero] at h
    subst h
    simp [chunkGo] at hc
  | succ n ih =>
    intro ids h c hc
    match ids with
    | [] => simp [chunkGo] at hc
    | x :: xs =>
      simp only [chunkGo] at hc
      rcases hrest : chunkGo k n ((x :: xs).drop k) with _ | ⟨r, rs⟩
      · rw [hrest] at hc
        simp at hc
      · rw [hrest, List.dropLast_cons₂, List.mem_cons] at hc
        have hdrop : ((x :: xs).drop k).length ≤ n := by
          simp only [List.length_drop, List.length_cons]
          simp only [List.length_cons] at h
          omega
        rcases hc with rfl | hc
        · have hkx : k ≤ (x :: xs).length := by
            by_contra hlt
            push_neg at hlt
            have : (x :: xs).drop k = [] := by
              apply List.drop_eq_nil_of_le
              omega
            rw [this] at hrest
            simp [chunkGo] at hrest
          rw [List.length_take]
          simp only [List.length_cons] at hkx ⊢
          omega
        · have := ih _ hdrop c
          rw [hrest] at this
          exact this (by simpa using hc)

theorem foldl_append_eq_flatMap {α β : Type} (f : α → List β) :
    ∀ (l : List α) (acc : List β),
      l.foldl (fun a d => a ++ f d) acc = acc ++ l.flatMap f := by
  intro l
  induction l with
  | nil => intro acc; simp
  | cons x xs ih => intro acc; simp [List.foldl_cons, ih]

/-- C3: for every document and every chunk size ≥ 1, concatenating (in
emission order) the token sequences of the chunks that `tokenize_and_chunk`
emits for that document yields the document's full encoded token sequence;
every emitted chunk except possibly the last has exactly `chunk_size`
tokens, every emitted chunk has at most `chunk_size` tokens, and the chunk
list of a document batch is the in-order concatenation of each document's
chunks. -/
theorem claim_C3_chunk_reconstruction (encode : List Char → List Nat)
    (decode : List Nat → List Char) (k : Nat) (hk : 1 ≤ k) (d : Document)
    (documents : List Document) :
    ((tokenizeDoc encode decode k d).map TokenizedChunk.tokens).flatten = encode d.text
    ∧ (∀ c ∈ (tokenizeDoc encode decode k d).dropLast, c.tokens.length = k)
    ∧ (∀ c ∈ tokenizeDoc encode decode k d, c.tokens.length ≤ k)
    ∧ tokenize_and_chunk encode decode k documents
        = documents.flatMap (tokenizeDoc encode decode k) := by
  refine ⟨?_, ?_, ?_, ?_⟩
  · rw [tokenizeDoc, List.map_map]
    have : (TokenizedChunk.tokens ∘ fun w => ({ tokens := w, text := decode w } : TokenizedChunk))
        = id := by
      funext w
      rfl
    rw [this, List.map_id]
    exact chunkGo_flatten k hk _ _ le_rfl
  · intro c hc
    rw [tokenizeDoc, ← List.map_dropLast, List.mem_map] at hc
    obtain ⟨w, hw, rfl⟩ := hc
    exact chunkGo_dropLast_length k hk _ _ le_rfl w hw
  · intro c hc
    rw [tokenizeDoc, List.mem_map] at hc
    obtain ⟨w, hw, rfl⟩ := hc
    exact chunkGo_length_le k _ _ w hw
  · exact foldl_append_eq_flatMap _ documents []

/-- Concrete instance of the chunk-reconstruction claim: a five-token
document with chunk size 2. -/
theorem claim_C3_chunk_reconstruction_witness :
    1 ≤ 2
    ∧ (((tokenizeDoc (fun _ => [7, 8, 9, 10, 11]) (fun _ => []) 2 { text := ['a'] }).map
          TokenizedChunk.tokens).flatten = (fun (_ : List Char) => [7, 8, 9, 10, 11]) ['a']
    ∧ (∀ c ∈ (tokenizeDoc (fun _ => [7, 8, 9, 10, 11]) (fun _ => []) 2
          { text := ['a'] }).dropLast, c.tokens.length = 2)
    ∧ (∀ c ∈ tokenizeDoc (fun _ => [7, 8, 9, 10, 11]) (fun _ => []) 2 { text := ['a'] },
          c.tokens.length ≤ 2)
    ∧ tokenize_and_chunk (fun _ => [7, 8, 9, 10, 11]) (fun _ => []) 2 [{ text := ['a'] }]
        = [({ text := ['a'] } : Document)].flatMap
            (tokenizeDoc (fun _ => [7, 8, 9, 10, 11]) (fun _ => []) 2)) :=
  ⟨by decide,
   claim_C3_chunk_reconstruction (fun _ => [7, 8, 9, 10, 11]) (fun _ => []) 2 (by decide)
     { text := ['a'] } [{ text := ['a'] }]⟩

theorem backoffStep_ge (cur : Nat) (reported : Option Nat) :
    1000 ≤ backoffStep cur reported := by
  cases reported with
  | none => exact le_max_left _ _
  | some m => exact le_max_left _ _

/-- C2: the backoff clamp `max(1000, ...)` keeps every retried vocabulary
size at least 1000, so the fatal guard `current_vs < 1000` can never fire
and the `raise` branch is unreachable; against a trainer that rejects
every requested size (a corpus too small for any vocabulary, reporting no
usable maximum) the retry loop therefore never terminates: after any
number of attempts it is still retrying — neither trained nor fatally
raised. -/
theorem claim_C2_backoff_raise_unreachable :
    (∀ (cur : Nat) (reported : Option Nat), 1000 ≤ backoffStep cur reported)
    ∧ (∀ (trainer : Nat → TrainOutcome) (fuel cur n : Nat),
        trainLoop trainer fuel cur ≠ TrainResult.raised n)
    ∧ (∀ fuel cur : Nat, ∃ c : Nat,
        trainLoop (fun _ => TrainOutcome.failure none) fuel cur
          = TrainResult.stillRetrying c) := by
  refine ⟨backoffStep_ge, ?_, ?_⟩
  · intro trainer fuel
    induction fuel with
    | zero => intro cur n; simp [trainLoop]
    | succ m ih =>
      intro cur n
      simp only [trainLoop]
      cases htr : trainer cur with
      | success => simp
      | failure reported =>
        have h1000 := backoffStep_ge cur reported
        simp only
        rw [if_neg (by omega)]
        exact ih _ n
  · intro fuel
    induction fuel with
    | zero => intro cur; exact ⟨cur, rfl⟩
    | succ m ih =>
      intro cur
      have h1000 := backoffStep_ge cur none
      simp only [trainLoop]
      rw [if_neg (by omega)]
      exact ih _

theorem readMarkerBits_cons (c : Char) (l : List Char) :
    readMarkerBits (c :: l) =
      if c = ZERO_WIDTH_SPACE then false :: readMarkerBits l
      else if c = ZERO_WIDTH_JOINER then true :: readMarkerBits l
      else readMarkerBits l := by
  by_cases h1 : c = ZERO_WIDTH_SPACE
  · simp [readMarkerBits, List.filterMap_cons, h1]
  · by_cases h2 : c = ZERO_WIDTH_JOINER
    · have hne : ¬(ZERO_WIDTH_JOINER = ZERO_WIDTH_SPACE) := by decide
      simp [readMarkerBits, List.filterMap_cons, h1, h2, hne]
    · simp [readMarkerBits, List.filterMap_cons, h1, h2]

theorem readMarkerBits_nil_bits :
    ∀ (text : List Char),
      (∀ c ∈ text, c ≠ ZERO_WIDTH_SPACE ∧ c ≠ ZERO_WIDTH_JOINER) →
      readMarkerBits (watermarkChars text []) = [] := by
  intro text
  induction text with
  | nil => intro _; rfl
  | cons c cs ih =>
    intro h
    have hc := h c (List.mem_cons_self c cs)
    simp only [watermarkChars]
    rw [readMarkerBits_cons, if_neg hc.1, if_neg hc.2]
    exact ih (fun x hx => h x (List.mem_cons_of_mem c hx))

theorem readMarkerBits_watermark :
    ∀ (text : List Char) (bits : List Bool),
      (∀ c ∈ text, c ≠ ZERO_WIDTH_SPACE ∧ c ≠ ZERO_WIDTH_JOINER) →
      bits.length ≤ text.length →
      readMarkerBits (watermarkChars text bits) = bits := by
  intro text
  induction text with
  | nil =>
    intro bits _ hlen
    rw [List.length_nil, Nat.le_zero, List.length_eq_zero] at hlen
    subst hlen
    rfl
  | cons c cs ih =>
    intro bits h hlen
    have hc := h c (List.mem_cons_self c cs)
    have htail : ∀ x ∈ cs, x ≠ ZERO_WIDTH_SPACE ∧ x ≠ ZERO_WIDTH_JOINER :=
      fun x hx => h x (List.mem_cons_of_mem c hx)
    cases bits with
    | nil => exact readMarkerBits_nil_bits (c :: cs) h
    | cons b bs =>
      have hlen' : bs.length ≤ cs.length := by
        simp only [List.length_cons] at hlen
        omega
      simp only [watermarkChars]
      rw [readMarkerBits_cons, if_neg hc.1, if_neg hc.2]
      cases b with
      | false =>
        have hm : (if (false : Bool) then ZERO_WIDTH_JOINER else ZERO_WIDTH_SPACE)
            = ZERO_WIDTH_SPACE := rfl
        rw [hm, readMarkerBits_cons, if_pos rfl, ih bs htail hlen']
      | true =>
        have hm : (if (true : Bool) then ZERO_WIDTH_JOINER else ZERO_WIDTH_SPACE)
            = ZERO_WIDTH_JOINER := rfl
        have hne : ZERO_WIDTH_JOINER ≠ ZERO_WIDTH_SPACE := by decide
        rw [hm, readMarkerBits_cons, if_neg hne, if_pos rfl, ih bs htail hlen']

theorem nibble_roundtrip (n : Nat) (h : n < 16) :
    ((if n.testBit 3 then 8 else 0) + (if n.testBit 2 then 4 else 0)
      + (if n.testBit 1 then 2 else 0) + (if n.testBit 0 then 1 else 0)) = n := by
  interval_cases n <;> decide

theorem hexDigitVal_lt (c : Char) (h : isLowerHex c = true) : hexDigitVal c < 16 := by
  have e0 : ('0' : Char).toNat = 48 := rfl
  have e9 : ('9' : Char).toNat = 57 := rfl
  have ea : ('a' : Char).toNat = 97 := rfl
  have ef : ('f' : Char).toNat = 102 := rfl
  simp only [isLowerHex, Bool.or_eq_true, Bool.and_eq_true, decide_eq_true_eq] at h
  rcases h with ⟨h1, h2⟩ | ⟨h1, h2⟩
  · have h2' : c.toNat ≤ ('9' : Char).toNat := h2
    rw [hexDigitVal, if_pos ⟨h1, h2⟩]
    omega
  · have h1' : ('a' : Char).toNat ≤ c.toNat := h1
    have h2' : c.toNat ≤ ('f' : Char).toNat := h2
    have hnot : ¬('0' ≤ c ∧ c ≤ '9') := by
      rintro ⟨_, hx⟩
      have hx' : c.toNat ≤ ('9' : Char).toNat := hx
      omega
    rw [hexDigitVal, if_neg hnot, if_pos ⟨h1, h2⟩]
    omega

theorem hexChar_hexDigitVal (c : Char) (h : isLowerHex c = true) :
    hexChar (hexDigitVal c) = c := by
  have e0 : ('0' : Char).toNat = 48 := rfl
  have e9 : ('9' : Char).toNat = 57 := rfl
  have ea : ('a' : Char).toNat = 97 := rfl
  have ef : ('f' : Char).toNat = 102 := rfl
  simp only [isLowerHex, Bool.or_eq_true, Bool.and_eq_true, decide_eq_true_eq] at h
  rcases h with ⟨h1, h2⟩ | ⟨h1, h2⟩
  · have h1' : ('0' : Char).toNat ≤ c.toNat := h1
    have h2' : c.toNat ≤ ('9' : Char).toNat := h2
    rw [hexDigitVal, if_pos ⟨h1, h2⟩, hexChar, if_pos (by omega)]
    have harg : '0'.toNat + (c.toNat - '0'.toNat) = c.toNat := by omega
    rw [harg, Char.ofNat_toNat]
  · have h1' : ('a' : Char).toNat ≤ c.toNat := h1
    have h2' : c.toNat ≤ ('f' : Char).toNat := h2
    have hnot : ¬('0' ≤ c ∧ c ≤ '9') := by
      rintro ⟨_, hx⟩
      have hx' : c.toNat ≤ ('9' : Char).toNat := hx
      omega
    rw [hexDigitVal, if_neg hnot, if_pos ⟨h1, h2⟩, hexChar, if_neg (by omega)]
    have harg : 'a'.toNat + (c.toNat - 'a'.toNat + 10 - 10) = c.toNat := by omega
    rw [harg, Char.ofNat_toNat]

theorem bitstreamOf_cons (c : Char) (cs : List Char) :
    bitstreamOf (c :: cs) = (hexDigitVal c).testBit 3 :: (hexDigitVal c).testBit 2
      :: (hexDigitVal c).testBit 1 :: (hexDigitVal c).testBit 0 :: bitstreamOf cs := by
  simp [bitstreamOf, nibbleBits]

theorem hexOfBits_bitstream :
    ∀ (w : List Char), (∀ c ∈ w, isLowerHex c = true) →
      hexOfBits (bitstreamOf w) = w := by
  intro w
  induction w with
  | nil => intro _; rfl
  | cons c cs ih =>
    intro h
    have hc := h c (List.mem_cons_self c cs)
    have htail : ∀ x ∈ cs, isLowerHex x = true :=
      fun x hx => h x (List.mem_cons_of_mem c hx)
    rw [bitstreamOf_cons]
    simp only [hexOfBits]
    rw [nibble_roundtrip _ (hexDigitVal_lt c hc), hexChar_hexDigitVal c hc, ih htail]

theorem bitstreamOf_length (w : List Char) : (bitstreamOf w).length = 4 * w.length := by
  induction w with
  | nil => rfl
  | cons c cs ih =>
    rw [bitstreamOf_cons]
    simp only [List.length_cons, ih]
    omega

/-- C4: for every 16-hex-character (lower-case, as produced by
`hexdigest`) watermark `w` and every text of at least 64 characters
containing no zero-width marker characters, reading back the bitstream of
marker characters inserted by `_watermark_text` (zero-width space as bit
0, zero-width joiner as bit 1) and regrouping each four bits into a hex
digit recovers exactly `w`. -/
theorem claim_C4_watermark_roundtrip (text w : List Char)
    (hlen : 64 ≤ text.length)
    (hclean : ∀ c ∈ text, c ≠ ZERO_WIDTH_SPACE ∧ c ≠ ZERO_WIDTH_JOINER)
    (hw : w.length = 16) (hhex : ∀ c ∈ w, isLowerHex c = true) :
    hexOfBits (readMarkerBits (_watermark_text text w)) = w := by
  rw [_watermark_text, readMarkerBits_watermark text (bitstreamOf w) hclean
    (by rw [bitstreamOf_length, hw]; omega)]
  exact hexOfBits_bitstream w hhex

/-- Concrete instance of the watermark round-trip: 64 'x' characters
watermarked with "0123456789abcdef". -/
theorem claim_C4_watermark_roundtrip_witness :
    64 ≤ (List.replicate 64 'x').length
    ∧ (∀ c ∈ List.replicate 64 'x', c ≠ ZERO_WIDTH_SPACE ∧ c ≠ ZERO_WIDTH_JOINER)
    ∧ ("0123456789abcdef".toList.length = 16)
    ∧ (∀ c ∈ "0123456789abcdef".toList, isLowerHex c = true)
    ∧ hexOfBits (readMarkerBits (_watermark_text (List.replicate 64 'x')
        "0123456789abcdef".toList)) = "0123456789abcdef".toList :=
  ⟨by decide, by decide, by decide, by decide,
   claim_C4_watermark_roundtrip (List.replicate 64 'x') "0123456789abcdef".toList
     (by decide) (by decide) (by decide) (by decide)⟩


theorem hash_absorb_eq_specHashStream :
    ∀ (texts : List (List Char)) (acc : List Nat),
      texts.foldl (fun acc t => acc ++ utf8Bytes t ++ [10]) acc
        = acc ++ specHashStream texts := by
  intro texts
  induction texts with
  | nil => intro acc; simp [specHashStream]
  | cons t ts ih =>
    intro acc
    rw [List.foldl_cons, ih]
    simp [specHashStream, List.append_assoc]

/-- C5: the dataset hash is the SHA-256 digest of the concatenation, in
document order, of each text's UTF-8 bytes followed by one newline byte —
the streamed `update` calls absorb exactly that stream — and the
`DatasetStats` of `export_all` carries an identical hash whatever
export-format set, watermark flag, ASCII flag, or chunk list is requested
(and is byte-identical across runs, `export_all` being a pure function of
its inputs). -/
theorem claim_C5_hash_deterministic_format_independent
    (sha256hex : List Nat → List Char) (documents : List Document)
    (chunks chunks' : List TokenizedChunk) (formats formats' : List (List Char))
    (w w' a a' : Bool) :
    (export_all sha256hex documents chunks formats w a).dataset_hash
        = sha256hex (specHashStream (documents.map Document.text))
    ∧ (export_all sha256hex documents chunks formats w a).dataset_hash
        = (export_all sha256hex documents chunks' formats' w' a').dataset_hash := by
  constructor
  · simp only [export_all, _compute_dataset_hash, hash_absorb_eq_specHashStream,
      List.nil_append]
  · simp only [export_all]

/-- C9: `_compute_dataset_hash` does not separate document boundaries from
embedded newlines — the one-document corpus `[a ++ "\n" ++ b]` and the
two-document corpus `[a, b]` absorb the same byte stream and so share a
dataset hash, although the corpora are distinct. -/
theorem claim_C9_hash_boundary_collision (sha256hex : List Nat → List Char)
    (a b : List Char) :
    _compute_dataset_hash sha256hex [a ++ '\n' :: b]
        = _compute_dataset_hash sha256hex [a, b]
    ∧ ([a ++ '\n' :: b] : List (List Char)) ≠ [a, b] := by
  constructor
  · simp only [_compute_dataset_hash]
    congr 1
    simp only [List.foldl_cons, List.foldl_nil, List.nil_append, utf8Bytes,
      List.flatMap_append, List.flatMap_cons]
    have h10 : utf8EncodeCharM '\n' = [10] := rfl
    simp [h10, List.append_assoc]
  · intro h
    have := congrArg List.length h
    simp at this

theorem filterMap_eq_map_of_mem {α β : Type} (f : α → Option β) (g : α → β) :
    ∀ l : List α, (∀ x ∈ l, f x = some (g x)) → l.filterMap f = l.map g := by
  intro l
  induction l with
  | nil => intro _; rfl
  | cons x xs ih =>
    intro h
    rw [List.filterMap_cons, h x (List.mem_cons_self x xs), List.map_cons,
      ih (fun y hy => h y (List.mem_cons_of_mem x hy))]

theorem dedupGo_subset (sim : List Char → List Char → Bool) :
    ∀ (l kept : List Document) (d : Document), d ∈ dedupGo sim kept l → d ∈ l := by
  intro l
  induction l with
  | nil => intro kept d hd; simp [dedupGo] at hd
  | cons x xs ih =>
    intro kept d hd
    rw [dedupGo] at hd
    split at hd
    · exact List.mem_cons_of_mem x (ih kept d hd)
    · rcases List.mem_cons.mp hd with rfl | hd'
      · exact List.mem_cons_self _ _
      · exact List.mem_cons_of_mem x (ih (kept ++ [x]) d hd')

theorem dedupGo_idem (sim : List Char → List Char → Bool) :
    ∀ (l kept : List Document),
      dedupGo sim kept (dedupGo sim kept l) = dedupGo sim kept l := by
  intro l
  induction l with
  | nil => intro kept; rfl
  | cons x xs ih =>
    intro kept
    rw [dedupGo]
    split
    · exact ih kept
    · rename_i hx
      rw [dedupGo, if_neg hx, ih (kept ++ [x])]

theorem langs_eq (caps : TextCaps) (ma lf : Bool) (M : List Document) :
    (if lf then detect_language caps ma (M.map Document.text)
     else M.map (fun _ => none))
      = M.map (fun x => detectFor caps ma lf x.text) := by
  cases lf with
  | false => simp [detectFor]
  | true =>
    cases ma with
    | false =>
      simp only [detect_language, detectFor, Bool.false_eq_true, if_false, if_true]
      rw [List.map_map]
      rfl
    | true => simp [detect_language, detectFor, List.map_map, Function.comp]

theorem langStage_eq_filterMap (caps : TextCaps) (ma : Bool)
    (wl bl : List (List Char)) (lf : Bool) (M : List Document) :
    langStage caps ma wl bl lf M
      = M.filterMap (fun x =>
          if langGateKeep wl bl (detectFor caps ma lf x.text) then
            some ({ text := x.text, language := detectFor caps ma lf x.text } : Document)
          else none) := by
  rw [langStage, langs_eq]
  rw [← List.map_prod_left_eq_zip, List.filterMap_map]
  rfl

theorem cleanPre_mem (caps : TextCaps) (ma : Bool) (wl bl : List (List Char))
    (rb pf lf : Bool) (docs : List Document) (d : Document)
    (hd : d ∈ cleanPre caps ma wl bl rb pf lf docs) :
    d.text.isEmpty = false
    ∧ (pf = true → caps.profanityHit d.text = false)
    ∧ d.language = detectFor caps ma lf d.text
    ∧ langGateKeep wl bl d.language = true
    ∧ d.metadata = none := by
  rw [cleanPre, langStage_eq_filterMap] at hd
  obtain ⟨x, hxM, hxd⟩ := List.mem_filterMap.mp hd
  have hgate : langGateKeep wl bl (detectFor caps ma lf x.text) = true := by
    by_contra hg
    rw [if_neg hg] at hxd
    exact Option.noConfusion hxd
  rw [if_pos hgate] at hxd
  have hdx : d = { text := x.text, language := detectFor caps ma lf x.text } :=
    (Option.some.injEq _ _ ▸ hxd).symm
  obtain ⟨y, hyN, hyx⟩ := List.mem_filterMap.mp hxM
  obtain ⟨t, htf, hty⟩ := List.mem_map.mp hyN
  have ⟨htmem, htne⟩ := List.mem_filter.mp htf
  have hx_shape : x.text = t ∧ (pf = true → caps.profanityHit x.text = false) := by
    cases pf with
    | false =>
      simp only [Bool.false_eq_true, if_false] at hyx
      have : y = x := Option.some.injEq _ _ ▸ hyx
      subst this
      rw [← hty]
      exact ⟨rfl, fun h => Bool.noConfusion h⟩
    | true =>
      simp only [if_true, remove_profanity] at hyx
      by_cases hhit : caps.profanityHit y.text = true
      · rw [if_pos hhit] at hyx
        exact Option.noConfusion hyx
      · rw [if_neg hhit] at hyx
        have hx : x = { text := y.text } := (Option.some.injEq _ _ ▸ hyx).symm
        subst hx
        rw [← hty]
        refine ⟨rfl, fun _ => ?_⟩
        rw [← hty] at hhit
        exact Bool.eq_false_iff.mpr hhit
  subst hdx
  refine ⟨?_, ?_, rfl, hgate, rfl⟩
  · rw [hx_shape.1]
    simp only [Bool.not_eq_true'] at htne
    exact htne
  · exact hx_shape.2

theorem clean_documents_mem (caps : TextCaps) (ma : Bool)
    (wl bl : List (List Char)) (rb pf lf dd : Bool) (docs : List Document)
    (d : Document) (hd : d ∈ clean_documents caps ma wl bl rb pf lf dd docs) :
    d.text.isEmpty = false
    ∧ (pf = true → caps.profanityHit d.text = false)
    ∧ d.language = detectFor caps ma lf d.text
    ∧ langGateKeep wl bl d.language = true
    ∧ d.metadata = none := by
  rw [clean_documents] at hd
  cases dd with
  | false =>
    simp only [Bool.false_eq_true, if_false] at hd
    exact cleanPre_mem caps ma wl bl rb pf lf docs d hd
  | true =>
    simp only [if_true, deduplicate_documents] at hd
    exact cleanPre_mem caps ma wl bl rb pf lf docs d
      (dedupGo_subset caps.sim _ [] d hd)

theorem normalizeStage_fixed (caps : TextCaps) (rb : Bool) (L : List Document)
    (h1 : ∀ d ∈ L, d.text.isEmpty = false)
    (hfix : ∀ d ∈ L, cleanTransform caps rb d.text = d.text) :
    normalizeStage caps rb L = L.map (fun d => ({ text := d.text } : Document)) := by
  have hstep : (if rb then (L.map (fun d => normalize_text caps d.text)).map caps.regexClean
      else L.map (fun d => normalize_text caps d.text))
      = L.map (fun d => cleanTransform caps rb d.text) := by
    cases rb with
    | false => simp only [Bool.false_eq_true, if_false, cleanTransform]
    | true =>
      simp only [if_true, cleanTransform, List.map_map]
      rfl
  rw [normalizeStage, hstep, List.map_congr_left hfix]
  have hfil : (L.map (fun d => d.text)).filter (fun t => !t.isEmpty)
      = L.map (fun d => d.text) := by
    rw [List.filter_eq_self]
    intro a ha
    obtain ⟨d, hdL, rfl⟩ := List.mem_map.mp ha
    rw [h1 d hdL]
    rfl
  rw [hfil, List.map_map]
  rfl

theorem profanityStage_fixed (caps : TextCaps) (pf : Bool) (L : List Document)
    (h2 : ∀ d ∈ L, pf = true → caps.profanityHit d.text = false) :
    profanityStage caps pf (L.map (fun d => ({ text := d.text } : Document)))
      = L.map (fun d => ({ text := d.text } : Document)) := by
  rw [profanityStage, List.filterMap_map]
  refine filterMap_eq_map_of_mem _ _ L (fun d hd => ?_)
  cases pf with
  | false => rfl
  | true =>
    have hh := h2 d hd rfl
    simp only [Function.comp_apply, if_true, remove_profanity, hh, Bool.false_eq_true,
      if_false]

theorem langStage_fixed (caps : TextCaps) (ma : Bool) (wl bl : List (List Char))
    (lf : Bool) (L : List Document)
    (h3 : ∀ d ∈ L, d.language = detectFor caps ma lf d.text)
    (h4 : ∀ d ∈ L, langGateKeep wl bl d.language = true)
    (h5 : ∀ d ∈ L, d.metadata = none) :
    langStage caps ma wl bl lf (L.map (fun d => ({ text := d.text } : Document))) = L := by
  rw [langStage_eq_filterMap, List.filterMap_map]
  have hid : L.map id = L := List.map_id L
  conv_rhs => rw [← hid]
  refine filterMap_eq_map_of_mem _ id L (fun d hd => ?_)
  simp only [Function.comp_apply, id]
  rw [← h3 d hd, if_pos (h4 d hd)]
  have hm : d.metadata = none := h5 d hd
  obtain ⟨t, lang, meta⟩ := d
  rw [show meta = none from hm]

theorem cleanPre_fixed (caps : TextCaps) (ma : Bool) (wl bl : List (List Char))
    (rb pf lf : Bool) (L : List Document)
    (h1 : ∀ d ∈ L, d.text.isEmpty = false)
    (h2 : ∀ d ∈ L, pf = true → caps.profanityHit d.text = false)
    (h3 : ∀ d ∈ L, d.language = detectFor caps ma lf d.text)
    (h4 : ∀ d ∈ L, langGateKeep wl bl d.language = true)
    (h5 : ∀ d ∈ L, d.metadata = none)
    (hfix : ∀ d ∈ L, cleanTransform caps rb d.text = d.text) :
    cleanPre caps ma wl bl rb pf lf L = L := by
  rw [cleanPre, normalizeStage_fixed caps rb L h1 hfix,
    profanityStage_fixed caps pf L h2, langStage_fixed caps ma wl bl lf L h3 h4 h5]

/-- C6 counterexample: cleaning is not idempotent.  HTML-unescaping runs
after carriage-return unification, so cleaning the document `"a&#13;b"`
yields the text `"a\rb"` containing a carriage return, and cleaning that
output again turns it into `"a\nb"`: the second pass changes the batch.
(All stage toggles are off; `html.unescape` maps `"a&#13;b"` to `"a\rb"`
— `&#13;` is the numeric character reference for CARRIAGE RETURN — and
is the identity on the other occurring texts, NFKC and strip being the
identity on all of them.) -/
theorem claim_C6_cleaning_idempotent_counterexample :
    clean_documents capsCE false [] [] false false false false
        (clean_documents capsCE false [] [] false false false false
          [{ text := "a&#13;b".toList }])
      ≠ clean_documents capsCE false [] [] false false false false
          [{ text := "a&#13;b".toList }] := by decide

/-- C6 (amended): applying `clean_documents` to its own output changes
nothing, for every capability instantiation and toggle combination,
provided the per-text normalization composite (`normalize_text` followed
by `regex_clean` when enabled) is a fixed point on every output text;
without that proviso idempotence fails (see the counterexample: an output
text may itself still contain an HTML escape or a carriage return,
because unescaping runs after newline unification). -/
theorem claim_C6_cleaning_idempotent_amended (caps : TextCaps) (ma : Bool)
    (wl bl : List (List Char)) (rb pf lf dd : Bool) (docs : List Document)
    (hfix : ∀ d ∈ clean_documents caps ma wl bl rb pf lf dd docs,
        cleanTransform caps rb d.text = d.text) :
    clean_documents caps ma wl bl rb pf lf dd
        (clean_documents caps ma wl bl rb pf lf dd docs)
      = clean_documents caps ma wl bl rb pf lf dd docs := by
  have hmem := fun d hd => clean_documents_mem caps ma wl bl rb pf lf dd docs d hd
  set L := clean_documents caps ma wl bl rb pf lf dd docs with hL
  have hpre : cleanPre caps ma wl bl rb pf lf L = L :=
    cleanPre_fixed caps ma wl bl rb pf lf L
      (fun d hd => (hmem d hd).1)
      (fun d hd => (hmem d hd).2.1)
      (fun d hd => (hmem d hd).2.2.1)
      (fun d hd => (hmem d hd).2.2.2.1)
      (fun d hd => (hmem d hd).2.2.2.2)
      hfix
  rw [clean_documents]
  cases dd with
  | false =>
    simp only [Bool.false_eq_true, if_false]
    exact hpre
  | true =>
    simp only [if_true, deduplicate_documents]
    rw [hpre, hL, clean_documents]
    simp only [if_true, deduplicate_documents]
    exact dedupGo_idem caps.sim _ []

/-- Concrete instance of the amended idempotence claim: a batch of one
plain document, all filters and deduplication enabled. -/
theorem claim_C6_cleaning_idempotent_amended_witness :
    (∀ d ∈ clean_documents capsCE false [] [] false true true true
        [{ text := "hello".toList }],
      cleanTransform capsCE false d.text = d.text)
    ∧ clean_documents capsCE false [] [] false true true true
        (clean_documents capsCE false [] [] false true true true
          [{ text := "hello".toList }])
      = clean_documents capsCE false [] [] false true true true
          [{ text := "hello".toList }] :=
  ⟨by decide, claim_C6_cleaning_idempotent_amended capsCE false [] [] false true true true
    [{ text := "hello".toList }] (by decide)⟩

/-- C10: every document returned by `clean_documents` has `metadata =
None`, and its language field is exactly the gate's freshly detected
value for its (cleaned) text — `None` whenever detection is disabled or
the classifier model is unavailable; of the input fields only the text
(as transformed) survives. -/
theorem claim_C10_cleaning_discards_metadata (caps : TextCaps) (ma : Bool)
    (wl bl : List (List Char)) (rb pf lf dd : Bool) (docs : List Document)
    (d : Document) (hd : d ∈ clean_documents caps ma wl bl rb pf lf dd docs) :
    d.metadata = none ∧ d.language = detectFor caps ma lf d.text := by
  have h := clean_documents_mem caps ma wl bl rb pf lf dd docs d hd
  exact ⟨h.2.2.2.2, h.2.2.1⟩

/-- Concrete instance of the metadata-discarding claim: an input document
carrying a language tag and a metadata entry loses both. -/
theorem claim_C10_cleaning_discards_metadata_witness :
    ({ text := "hello".toList, language := none } : Document)
        ∈ clean_documents capsCE false [] [] false true true true
            [{ text := "hello".toList, language := some "fr".toList,
               metadata := some [("k".toList, "v".toList)] }]
    ∧ ({ text := "hello".toList, language := none } : Document).metadata = none
    ∧ ({ text := "hello".toList, language := none } : Document).language
        = detectFor capsCE false true
            ({ text := "hello".toList, language := none } : Document).text :=
  ⟨by decide,
   claim_C10_cleaning_discards_metadata capsCE false [] [] false true true true
     [{ text := "hello".toList, language := some "fr".toList,
        metadata := some [("k".toList, "v".toList)] }]
     { text := "hello".toList, language := none } (by decide)⟩

/-- C1 counterexample: a document lacking a detected language code is
kept even though a whitelist `{en}` is configured (no classifier model is
available, so detection yields `None`), contradicting the claim that such
a document is dropped whenever a whitelist is configured.  The
whitelist/blacklist checks sit under `if lang:` (cleaning.py line 123),
so a falsy code bypasses both. -/
theorem claim_C1_language_gate_counterexample :
    clean_documents capsCE false ["en".toList] [] false false true false
        [{ text := "hello".toList }]
      = [{ text := "hello".toList, language := none }]
    ∧ clean_documents capsCE false ["en".toList] [] false false true false
        [{ text := "hello".toList }] ≠ [] :=
  ⟨by decide, by decide⟩

/-- C1 (amended): for a truthy detected code the whitelist is evaluated
before the blacklist and either list can drop the document — a code
missing from a configured whitelist is dropped, and a code present in a
configured blacklist is dropped even when the whitelist admits it (so a
code in both lists is dropped) — while a document lacking a detected
code is always kept, whether or not any list is configured. -/
theorem langGateKeep_some (wl bl : List (List Char)) (l : List Char)
    (hne : l.isEmpty = false) :
    langGateKeep wl bl (some l)
      = (!(!wl.isEmpty && !wl.contains l) && !(!bl.isEmpty && bl.contains l)) := by
  have ht : optTruthy (some l) = true := by rw [optTruthy, hne]; rfl
  rw [langGateKeep, ht]
  simp only [if_true]
  cases hA : (!wl.isEmpty && !wl.contains l) with
  | true => simp
  | false =>
    simp only [Bool.false_eq_true, if_false, Bool.not_false, Bool.true_and]
    cases hB : (!bl.isEmpty && bl.contains l) with
    | true => simp
    | false => simp

theorem claim_C1_language_gate_amended (wl bl : List (List Char)) (l : List Char)
    (hne : l.isEmpty = false) :
    langGateKeep wl bl none = true
    ∧ (wl ≠ [] → wl.contains l = false → langGateKeep wl bl (some l) = false)
    ∧ (bl ≠ [] → bl.contains l = true → langGateKeep wl bl (some l) = false)
    ∧ ((wl = [] ∨ wl.contains l = true) → (bl = [] ∨ bl.contains l = false) →
        langGateKeep wl bl (some l) = true) := by
  refine ⟨rfl, ?_, ?_, ?_⟩
  · intro h1 h2
    have hw : wl.isEmpty = false := by
      cases wl with
      | nil => exact absurd rfl h1
      | cons w ws => rfl
    rw [langGateKeep_some wl bl l hne, hw, h2]
    rfl
  · intro h1 h2
    have hb : bl.isEmpty = false := by
      cases bl with
      | nil => exact absurd rfl h1
      | cons b bs => rfl
    rw [langGateKeep_some wl bl l hne, hb, h2]
    simp
  · intro h1 h2
    rw [langGateKeep_some wl bl l hne]
    rcases h1 with rfl | h1
    · rcases h2 with rfl | h2
      · rfl
      · rw [h2]
        simp
    · rw [h1]
      rcases h2 with rfl | h2
      · simp
      · rw [h2]
        simp

/-- Concrete instance of the amended gate claim at whitelist `{en}`,
blacklist `{en}`, code `en`: the document is dropped (third conjunct). -/
theorem claim_C1_language_gate_amended_witness :
    ("en".toList.isEmpty = false)
    ∧ (langGateKeep ["en".toList] ["en".toList] none = true
    ∧ (["en".toList] ≠ ([] : List (List Char)) →
        ["en".toList].contains "en".toList = false →
        langGateKeep ["en".toList] ["en".toList] (some "en".toList) = false)
    ∧ (["en".toList] ≠ ([] : List (List Char)) →
        ["en".toList].contains "en".toList = true →
        langGateKeep ["en".toList] ["en".toList] (some "en".toList) = false)
    ∧ ((["en".toList] = ([] : List (List Char))
          ∨ ["en".toList].contains "en".toList = true) →
       (["en".toList] = ([] : List (List Char))
          ∨ ["en".toList].contains "en".toList = false) →
        langGateKeep ["en".toList] ["en".toList] (some "en".toList) = true)) :=
  ⟨by decide, claim_C1_language_gate_amended ["en".toList] ["en".toList] "en".toList
    (by decide)⟩

theorem leadMatch_append :
    ∀ (sep l : List Char), leadMatch sep l = true → sep ++ l.drop sep.length = l := by
  intro sep
  induction sep with
  | nil => intro l _; rfl
  | cons a as ih =>
    intro l h
    match l with
    | [] => exact absurd h (by simp [leadMatch])
    | b :: bs =>
      simp only [leadMatch, Bool.and_eq_true, decide_eq_true_eq] at h
      simp only [List.length_cons, List.cons_append, List.drop_succ_cons]
      rw [ih bs h.2, h.1]

theorem splitOnAux_ne_nil (sep : List Char) :
    ∀ (fuel : Nat) (l : List Char), splitOnAux sep fuel l ≠ [] := by
  intro fuel
  induction fuel with
  | zero =>
    intro l
    match l with
    | [] => simp [splitOnAux]
    | c :: cs => simp [splitOnAux]
  | succ n ih =>
    intro l
    match l with
    | [] => simp [splitOnAux]
    | c :: cs =>
      rw [splitOnAux]
      split
      · simp
      · split
        · simp
        · simp

theorem joinSep_cons_cons (sep : List Char) (c : Char) (h : List Char)
    (t : List (List Char)) :
    joinSep sep ((c :: h) :: t) = c :: joinSep sep (h :: t) := by
  cases t with
  | nil => rfl
  | cons y ys => simp [joinSep, List.cons_append]

theorem joinSep_splitOnAux (sep : List Char) (hsep : sep ≠ []) :
    ∀ (fuel : Nat) (l : List Char), l.length ≤ fuel →
      joinSep sep (splitOnAux sep fuel l) = l := by
  intro fuel
  induction fuel with
  | zero =>
    intro l h
    rw [Nat.le_zero, List.length_eq_zero] at h
    subst h
    rfl
  | succ n ih =>
    intro l h
    match l with
    | [] => rfl
    | c :: cs =>
      rw [splitOnAux]
      simp only [List.length_cons] at h
      split
      · rename_i hlead
        rcases hrest : splitOnAux sep n (cs.drop (sep.length - 1)) with _ | ⟨r, t⟩
        · exact absurd hrest (splitOnAux_ne_nil sep n _)
        · have hlen : (cs.drop (sep.length - 1)).length ≤ n := by
            simp only [List.length_drop]
            omega
          have hjoin : joinSep sep (r :: t) = cs.drop (sep.length - 1) := by
            rw [← hrest, ih _ hlen]
          rw [joinSep, hjoin]
          match sep, hsep with
          | s :: ss, _ =>
            simp only [List.nil_append, List.length_cons, Nat.add_sub_cancel]
            have := leadMatch_append (s :: ss) (c :: cs) hlead
            simp only [List.length_cons, List.drop_succ_cons] at this
            exact this
      · rcases hrest : splitOnAux sep n cs with _ | ⟨r, t⟩
        · exact absurd hrest (splitOnAux_ne_nil sep n _)
        · rw [joinSep_cons_cons, ← hrest, ih _ (by omega)]

theorem joinSep_splitOn (sep : List Char) (hsep : sep ≠ []) (l : List Char) :
    joinSep sep (splitOn sep l) = l :=
  joinSep_splitOnAux sep hsep l.length l le_rfl

theorem sentence_reorder_skip (coin : Bool)
    (shuffle : List (List Char) → List (List Char)) (d : Document)
    (h : coin = false ∨ (splitOn ['.', ' '] d.text).length ≤ 2) :
    sentence_reorder coin shuffle d = d := by
  have hcond : ¬(coin = true ∧ 2 < (splitOn ['.', ' '] d.text).length) := by
    rcases h with rfl | h
    · rintro ⟨h1, _⟩
      exact Bool.noConfusion h1
    · rintro ⟨_, h2⟩
      omega
  rw [sentence_reorder]
  simp only [if_neg hcond]
  rw [joinSep_splitOn ['.', ' '] (by decide) d.text]

/-- C7 counterexample: with wordnet absent, augmentation is not a no-op —
when the sentence-reorder event fires on a document with three
". "-separated sentences (probability 0.2 per document under
`random.random`, here with a draw below 0.2 and a reversing permutation,
both possible outcomes of the `random` module), the document text
changes. -/
theorem claim_C7_augmentation_noop_counterexample :
    augment_documents_noWordnet (fun _ => true) List.reverse
        [{ text := "a. b. c".toList }]
      ≠ [{ text := "a. b. c".toList }] := by decide

/-- C7 (amended): with wordnet absent, synonym replacement returns every
document unchanged and the stage is total (never an error), but sentence
reordering still runs: a document is returned textually unchanged
whenever its reorder event does not fire or it has at most two
". "-separated sentences — in particular, a run in which no reorder
event fires returns the input list unchanged — but a firing event on a
longer document may change the text. -/
theorem claim_C7_augmentation_degraded (coins : Nat → Bool)
    (shuffle : List (List Char) → List (List Char)) (documents : List Document)
    (hnone : ∀ i, coins i = false) :
    (∀ d : Document, synonym_replacement_noWordnet d = d)
    ∧ (∀ (c : Bool) (d : Document),
        c = false ∨ (splitOn ['.', ' '] d.text).length ≤ 2 →
        sentence_reorder c shuffle d = d)
    ∧ augment_documents_noWordnet coins shuffle documents = documents := by
  refine ⟨fun d => rfl, fun c d h => sentence_reorder_skip c shuffle d h, ?_⟩
  rw [augment_documents_noWordnet]
  have hmap : ∀ p ∈ documents.enum,
      sentence_reorder (coins p.1) shuffle (synonym_replacement_noWordnet p.2)
        = Prod.snd p := by
    intro p _
    rw [synonym_replacement_noWordnet, hnone p.1]
    exact sentence_reorder_skip false shuffle p.2 (Or.inl rfl)
  rw [List.map_congr_left hmap]
  exact List.enum_map_snd documents

/-- Concrete instance of the degraded-augmentation claim: one
three-sentence document, no reorder event firing. -/
theorem claim_C7_augmentation_degraded_witness :
    (∀ i : Nat, (fun _ : Nat => false) i = false)
    ∧ ((∀ d : Document, synonym_replacement_noWordnet d = d)
    ∧ (∀ (c : Bool) (d : Document),
        c = false ∨ (splitOn ['.', ' '] d.text).length ≤ 2 →
        sentence_reorder c List.reverse d = d)
    ∧ augment_documents_noWordnet (fun _ => false) List.reverse
        [{ text := "a. b. c".toList }] = [{ text := "a. b. c".toList }]) :=
  ⟨fun _ => rfl,
   claim_C7_augmentation_degraded (fun _ => false) List.reverse
     [{ text := "a. b. c".toList }] (fun _ => rfl)⟩

/-- C8: with a set-only (monotone) cancellation flag that is set by the
time of some poll of the run, `run` returns a failure result, the Export
stage is never performed, and the run stops exactly at the boundary of
the first poll that observes the flag — it never advances to any later
stage. -/
theorem claim_C8_cooperative_cancellation (aug : Bool) (flag : Nat → Bool)
    (hmono : ∀ i j : Nat, i ≤ j → flag i = true → flag j = true)
    (i : Nat) (hi : flag i = true) (hfirst : ∀ j, j < i → flag j = false)
    (hbound : i ≤ if aug then 4 else 3) :
    (run aug true flag).ok = false
    ∧ Stage.exporting ∉ (run aug true flag).stages
    ∧ (run aug true flag).stages = stagesBeforePoll aug i := by
  cases aug with
  | true =>
    simp only [if_true] at hbound
    interval_cases i
    · have hrun : run true true flag = { ok := false, stages := [] } := by
        simp [run, hi]
      rw [hrun]
      exact ⟨rfl, by decide, by decide⟩
    · have f0 : flag 0 = false := hfirst 0 (by omega)
      have hrun : run true true flag = { ok := false, stages := [Stage.importing] } := by
        simp [run, f0, hi]
      rw [hrun]
      exact ⟨rfl, by decide, by decide⟩
    · have f0 : flag 0 = false := hfirst 0 (by omega)
      have f1 : flag 1 = false := hfirst 1 (by omega)
      have hrun : run true true flag
          = { ok := false, stages := [Stage.importing, Stage.cleaning] } := by
        simp [run, f0, f1, hi]
      rw [hrun]
      exact ⟨rfl, by decide, by decide⟩
    · have f0 : flag 0 = false := hfirst 0 (by omega)
      have f1 : flag 1 = false := hfirst 1 (by omega)
      have f2 : flag 2 = false := hfirst 2 (by omega)
      have hrun : run true true flag
          = { ok := false,
              stages := [Stage.importing, Stage.cleaning, Stage.augmenting] } := by
        simp [run, f0, f1, f2, hi]
      rw [hrun]
      exact ⟨rfl, by decide, by decide⟩
    · have f0 : flag 0 = false := hfirst 0 (by omega)
      have f1 : flag 1 = false := hfirst 1 (by omega)
      have f2 : flag 2 = false := hfirst 2 (by omega)
      have f3 : flag 3 = false := hfirst 3 (by omega)
      have hrun : run true true flag
          = { ok := false,
              stages := [Stage.importing, Stage.cleaning, Stage.augmenting,
                Stage.tokenizing] } := by
        simp [run, f0, f1, f2, f3, hi]
      rw [hrun]
      exact ⟨rfl, by decide, by decide⟩
  | false =>
    simp only [Bool.false_eq_true, if_false] at hbound
    interval_cases i
    · have hrun : run false true flag = { ok := false, stages := [] } := by
        simp [run, hi]
      rw [hrun]
      exact ⟨rfl, by decide, by decide⟩
    · have f0 : flag 0 = false := hfirst 0 (by omega)
      have hrun : run false true flag = { ok := false, stages := [Stage.importing] } := by
        simp [run, f0, hi]
      rw [hrun]
      exact ⟨rfl, by decide, by decide⟩
    · have f0 : flag 0 = false := hfirst 0 (by omega)
      have f1 : flag 1 = false := hfirst 1 (by omega)
      have hrun : run false true flag
          = { ok := false, stages := [Stage.importing, Stage.cleaning] } := by
        simp [run, f0, f1, hi]
      rw [hrun]
      exact ⟨rfl, by decide, by decide⟩
    · have f0 : flag 0 = false := hfirst 0 (by omega)
      have f1 : flag 1 = false := hfirst 1 (by omega)
      have f2 : flag 2 = false := hfirst 2 (by omega)
      have hrun : run false true flag
          = { ok := false,
              stages := [Stage.importing, Stage.cleaning, Stage.tokenizing] } := by
        simp [run, f0, f1, f2, hi]
      rw [hrun]
      exact ⟨rfl, by decide, by decide⟩

/-- Concrete instance of the cancellation claim: the flag is set between
the post-import and post-cleaning polls of an augmentation-enabled run,
which therefore stops after cleaning with a failure result. -/
theorem claim_C8_cooperative_cancellation_witness :
    (∀ i j : Nat, i ≤ j → (fun k => decide (2 ≤ k)) i = true →
        (fun k => decide (2 ≤ k)) j = true)
    ∧ (fun k => decide (2 ≤ k)) 2 = true
    ∧ (∀ j, j < 2 → (fun k => decide (2 ≤ k)) j = false)
    ∧ (2 ≤ if true then 4 else 3)
    ∧ ((run true true (fun k => decide (2 ≤ k))).ok = false
      ∧ Stage.exporting ∉ (run true true (fun k => decide (2 ≤ k))).stages
      ∧ (run true true (fun k => decide (2 ≤ k))).stages = stagesBeforePoll true 2) :=
  ⟨fun i j hij hi => by
      simp only [decide_eq_true_eq] at hi ⊢
      omega,
   by decide,
   fun j hj => by
      simp only [decide_eq_false_iff_not]
      omega,
   by decide,
   claim_C8_cooperative_cancellation true (fun k => decide (2 ≤ k))
     (fun i j hij hi => by
        simp only [decide_eq_true_eq] at hi ⊢
        omega)
     2 (by decide)
     (fun j hj => by
        simp only [decide_eq_false_iff_not]
        omega)
     (by decide)⟩
